import Mathlib

/-!
Shallow embedding of the packhub core (filename classification, package
selection, APT/RPM index generation) and proofs about it.

Strings under scrutiny are modelled as `List Char`; raw package bytes as
`List Nat`; timestamps as `Int`.  External collaborators (hash crates,
compressors, the askama templates, the deb/rpm analyzers) are passed in as
explicit function parameters, so every generator stays a pure function of its
inputs, exactly as in the source.
-/

deriving instance DecidableEq for Except

namespace Packhub

/-- Semantic version record (`semver::Version` restricted to the numeric
major/minor/patch core that this system produces). -/
structure Version where
  major : Nat
  minor : Nat
  patch : Nat
deriving DecidableEq

/-- `Dist` from src/src/package.rs: a distribution family carrying an optional
parsed version.  Equality is structural: family and version must both match. -/
inductive Dist where
  | ubuntu (v : Option Version)
  | debian (v : Option Version)
  | fedora (v : Option Version)
deriving DecidableEq

/-- `Type` from src/src/package.rs: the packaging format. -/
inductive Tipe where
  | deb
  | rpm
deriving DecidableEq

/-- `Package` from src/src/package.rs.  The `Mutex<Option<Vec<u8>>>` raw-data
slot is modelled as the `Option (List Nat)` snapshot a reader observes; the
`DateTime<Utc>` creation time as an integer timestamp. -/
structure Package where
  tipe : Tipe
  dist : Option Dist
  url : List Char
  ver : List Char
  data : Option (List Nat)
  created : Int
deriving DecidableEq

/-- `split_at_numeric` from src/src/package.rs: walk adjacent character pairs
and return the suffix starting at the first ASCII digit that immediately
follows an ASCII alphabetic character. -/
def split_at_numeric : List Char → Option (List Char)
  | c1 :: c2 :: rest =>
    if c1.isAlpha && c2.isDigit then some (c2 :: rest)
    else split_at_numeric (c2 :: rest)
  | _ => none

/-- Decimal digit run to a number. -/
def digitsToNat (l : List Char) : Nat :=
  l.foldl (fun acc c => acc * 10 + (c.toNat - '0'.toNat)) 0

/-- Modelled from the spec: the external `lenient_semver::parse` collaborator
(the crate is not part of this repository), on the numeric inputs this system
feeds it — `N`, `N.N` or `N.N.N` with the missing components defaulting to 0
and leading zeros tolerated; other shapes are rejected in this model. -/
def lenient_parse (s : List Char) : Option Version :=
  let comps := s.splitOnP (fun c => c == '.')
  if comps.all (fun c => !c.isEmpty && c.all Char.isDigit) then
    match comps with
    | [a] => some ⟨digitsToNat a, 0, 0⟩
    | [a, b] => some ⟨digitsToNat a, digitsToNat b, 0⟩
    | [a, b, c] => some ⟨digitsToNat a, digitsToNat b, digitsToNat c⟩
    | _ => none
  else none

/-- `parse_version` from src/src/package.rs:
`parse(split_at_numeric(dist)?).ok()`. -/
def parse_version (dist : List Char) : Option Version :=
  (split_at_numeric dist).bind lenient_parse

/-- `split_extention` from src/src/package.rs: scan the characters from the
end, collecting them in reverse order until the last `.`; `index` is the
position of that `.`, left at 0 when none is found.  Fail when `index = 0`;
otherwise the collected (reversed) extension must read `bed` (deb) or `mpr`
(rpm). -/
def split_extention (s : List Char) : Option (Tipe × List Char) :=
  let str := s.reverse.takeWhile (fun c => !(c == '.'))
  let index := if str.length < s.length then s.length - str.length - 1 else 0
  if index = 0 then none
  else
    let splitted := s.take index
    if str = "bed".data then some (Tipe.deb, splitted)
    else if str = "mpr".data then some (Tipe.rpm, splitted)
    else none

/-- Does `pat` occur as a prefix of `l`? -/
def hasPre : List Char → List Char → Bool
  | [], _ => true
  | _ :: _, [] => false
  | p :: ps, c :: cs => p == c && hasPre ps cs

/-- `str::contains` on character lists: some suffix of `l` starts with
`pat`. -/
def containsSub : List Char → List Char → Bool
  | [], pat => hasPre pat []
  | l@(_ :: rest), pat => hasPre pat l || containsSub rest pat

/-- One iteration of the detection loop in `detect_package`: a section that
contains a distribution keyword overwrites the accumulator, the three match
guards tried in source order. -/
def detect_step (acc : Option Dist) (sec : List Char) : Option Dist :=
  if containsSub sec "ubuntu".data then some (Dist.ubuntu (parse_version sec))
  else if containsSub sec "debian".data then some (Dist.debian (parse_version sec))
  else if containsSub sec "fedora".data then some (Dist.fedora (parse_version sec))
  else acc

/-- The `for section in sections` loop of `detect_package`. -/
def detect_dist (sections : List (List Char)) : Option Dist :=
  sections.foldl detect_step none

/-- The sections of a filename stem: `splitted.split(['-', '_'])`. -/
def sections_of (splitted : List Char) : List (List Char) :=
  splitted.splitOnP (fun c => c == '-' || c == '_')

/-- `Package::detect_package` from src/src/package.rs. -/
def detect_package (name ver url : List Char) (created : Int) :
    Except Unit Package :=
  match split_extention name with
  | none => Except.error ()
  | some (tipe, splitted) =>
    Except.ok { tipe := tipe, dist := detect_dist (sections_of splitted),
                url := url, ver := ver, data := none, created := created }

/-- `Package::distribution` from src/src/package.rs:
`self.dist.as_ref().unwrap()`.  The panic on a missing distribution is
modelled by the `none` value. -/
def distribution (p : Package) : Option Dist := p.dist

/-- `Package::file_name` from src/src/package.rs:
`self.url.split('/').last().unwrap()` — the unwrap is discharged by
`List.splitOnP_ne_nil`. -/
def file_name (url : List Char) : List Char :=
  (url.splitOnP (fun c => c == '/')).getLast (List.splitOnP_ne_nil _ _)

/-- Modelled from the spec: `Type::matches_distribution` (the `crate::utils`
module that `selector.rs` imports is not among the source files): the Ubuntu
and Debian families map to the Deb packaging family, Fedora to Rpm. -/
def matches_distribution (t : Tipe) (d : Dist) : Bool :=
  match t, d with
  | Tipe.deb, Dist.ubuntu _ => true
  | Tipe.deb, Dist.debian _ => true
  | Tipe.rpm, Dist.fedora _ => true
  | _, _ => false

/-- The spec's "version-sensitive" families: those for which the selector has
an exact-match refinement pass. -/
def version_sensitive : Dist → Bool
  | Dist.ubuntu _ => true
  | Dist.fedora _ => true
  | Dist.debian _ => false

/-- `select_packages` from src/src/selector.rs: filter by packaging family,
then (for Ubuntu and Fedora requests) collect the packages whose distribution
equals the request exactly; return the exact matches when there are any,
otherwise the family-filtered list. -/
def select_packages (pool : List Package) (dist : Dist) : List Package :=
  let packages := pool.filter (fun p => matches_distribution p.tipe dist)
  let selective :=
    match dist with
    | Dist.ubuntu _ => packages.filter (fun p => p.dist == some dist)
    | Dist.fedora _ => packages.filter (fun p => p.dist == some dist)
    | Dist.debian _ => []
  if !selective.isEmpty then selective else packages

/-- ASCII view of Rust's `char::is_whitespace` as used on these documents. -/
def isWs (c : Char) : Bool := c.isWhitespace

/-- Rust `str::trim`: strip whitespace from both ends. -/
def trimChars (l : List Char) : List Char :=
  ((l.dropWhile isWs).reverse.dropWhile isWs).reverse

/-- Rust `str::trim_end`: strip whitespace from the right end. -/
def trimEndChars (l : List Char) : List Char :=
  (l.reverse.dropWhile isWs).reverse

/-- UTF-8 bytes of a character sequence (`str::as_bytes`). -/
def charsBytes (l : List Char) : List Nat :=
  l.flatMap (fun c => (String.utf8EncodeChar c).map (fun b => b.toNat))

/-- The external collaborators the APT generator calls: the Debian control
record extraction of `DebAnalyzer` (archive parsing is out of scope per the
spec) and the digest and gzip crates. -/
structure AptEnv where
  get_control_data : List Nat → List Char
  md5 : List Nat → List Char
  sha1 : List Nat → List Char
  sha256 : List Nat → List Char
  sha512 : List Nat → List Char
  gzip : List Nat → List Nat

/-- `DebianPackage` from src/src/apt/index.rs: one stanza's fields. -/
structure DebianPackage where
  control : List Char
  md5 : List Char
  sha1 : List Char
  sha256 : List Char
  sha512 : List Char
  size : Nat
  filename : List Char
deriving DecidableEq

/-- `Files` from src/src/apt/index.rs: one `Release` file entry. -/
structure Files where
  md5 : List Char
  sha1 : List Char
  sha256 : List Char
  sha512 : List Char
  size : Nat
  path : List Char
deriving DecidableEq

/-- `ReleaseIndex` from src/src/apt/index.rs: the fields the `Release`
template renders. -/
structure ReleaseIndex where
  origin : List Char
  label : List Char
  date : List Char
  files : List Files
deriving DecidableEq

/-- `get_package_metadata` from src/src/apt/index.rs: fails (is skipped by the
caller) when the package's raw data is not available. -/
def get_package_metadata (env : AptEnv) (package : Package) :
    Except (List Char) DebianPackage :=
  match package.data with
  | none => Except.error "Package data is not available".data
  | some data =>
    Except.ok
      { control := trimEndChars (env.get_control_data data)
        md5 := env.md5 data
        sha1 := env.sha1 data
        sha256 := env.sha256 data
        sha512 := env.sha512 data
        size := data.length
        filename := "pool/stable/".data ++ package.ver ++ "/".data
          ++ file_name package.url }

/-- Modelled from the spec: one stanza of the `Packages` askama template
(templates/Packages is not among the source files) — the trimmed control text
with the pool-path/size/digest fields appended in a fixed order. -/
def render_stanza (d : DebianPackage) : List Char :=
  d.control ++ "\nFilename: ".data ++ d.filename
    ++ "\nSize: ".data ++ Nat.toDigits 10 d.size
    ++ "\nMD5sum: ".data ++ d.md5
    ++ "\nSHA1: ".data ++ d.sha1
    ++ "\nSHA256: ".data ++ d.sha256
    ++ "\nSHA512: ".data ++ d.sha512 ++ "\n".data

/-- Modelled from the spec: the `Packages` template renders the stanzas in
input order, separated by a blank line. -/
def render_packages (stanzas : List DebianPackage) : List Char :=
  List.intercalate "\n".data (stanzas.map render_stanza)

/-- The per-package half of `AptIndices::get_package_index`: metadata of each
package, the packages without raw data filtered out (`filter_map(Result::ok)`). -/
def get_package_stanzas (env : AptEnv) (packages : List Package) :
    List DebianPackage :=
  packages.filterMap (fun p => (get_package_metadata env p).toOption)

/-- `AptIndices::get_package_index` from src/src/apt/index.rs: render the
surviving stanzas and trim the whole document. -/
def get_package_index (env : AptEnv) (packages : List Package) : List Char :=
  trimChars (render_packages (get_package_stanzas env packages))

/-- `AptIndices::get_release_index` from src/src/apt/index.rs.
`Utc::now().to_rfc2822()` is modelled by the `date_now` parameter (the
rendered current wall-clock time); the final askama render of the `Release`
template (not among the source files) is left at the field record it
renders. -/
def get_release_index (env : AptEnv) (date_now : List Char)
    (packages : List Package) : ReleaseIndex :=
  let date := date_now
  let pkgs := charsBytes (get_package_index env packages)
  let name := ". stable".data
  let packages_gz := env.gzip pkgs
  let files := [
    { sha256 := env.sha256 pkgs, size := pkgs.length,
      path := "main/binary-amd64/Packages".data,
      md5 := env.md5 pkgs, sha1 := env.sha1 pkgs, sha512 := env.sha512 pkgs },
    { sha256 := env.sha256 packages_gz, size := packages_gz.length,
      path := "main/binary-amd64/Packages.gz".data,
      md5 := env.md5 packages_gz, sha1 := env.sha1 packages_gz,
      sha512 := env.sha512 packages_gz } ]
  { date := date, files := files, origin := name, label := name }

/-- Modelled from the spec: `RPMPackage` (src/rpm/package.rs is not among the
source files) — the structured record extracted from an RPM: name, version,
architecture, size, build/package time, file list. -/
structure RPMPackage where
  name : List Char
  version : List Char
  arch : List Char
  size : Nat
  pkg_time : Int
  files : List (List Char)
deriving DecidableEq

/-- `Metadata` from src/src/rpm/index.rs: one `repomd.xml` data entry. -/
structure Metadata where
  sha256 : List Char
  open_sha256 : List Char
  size : Nat
  open_size : Nat
deriving DecidableEq

/-- `RepoMD` from src/src/rpm/index.rs: the fields the `repomd.xml` template
renders. -/
structure RepoMD where
  primary : Metadata
  filelists : Metadata
  other : Metadata
  timestamp : Int
deriving DecidableEq

/-- The external collaborators of the RPM generator: the three listing
templates (templates/primary.xml, filelists.xml, other.xml are not among the
source files), the zstd compressor (`encode_all` at level 0) and SHA-256. -/
structure RpmEnv where
  render_primary : List RPMPackage → List Char
  render_filelists : List RPMPackage → List Char
  render_other : List RPMPackage → List Char
  encode_all : List Nat → List Nat
  sha256 : List Nat → List Char

/-- `get_primary_index` from src/src/rpm/index.rs (the askama render). -/
def get_primary_index (env : RpmEnv) (packages : List RPMPackage) : List Char :=
  env.render_primary packages

/-- `get_filelists_index` from src/src/rpm/index.rs. -/
def get_filelists_index (env : RpmEnv) (packages : List RPMPackage) : List Char :=
  env.render_filelists packages

/-- `get_other_index` from src/src/rpm/index.rs. -/
def get_other_index (env : RpmEnv) (packages : List RPMPackage) : List Char :=
  env.render_other packages

/-- `Metadata::create` from src/src/rpm/index.rs: sizes and SHA-256 digests of
the plain and zstd-compressed forms of `content`. -/
def Metadata.create (env : RpmEnv) (content : List Char) : Metadata :=
  let data := charsBytes content
  let open_size := data.length
  let open_sha256 := env.sha256 data
  let compressed := env.encode_all data
  let size := compressed.length
  let sha256 := env.sha256 compressed
  { sha256 := sha256, open_sha256 := open_sha256, size := size,
    open_size := open_size }

/-- `RepoMD::create` from src/src/rpm/index.rs. -/
def RepoMD.create (env : RpmEnv) (primary filelists other : List Char)
    (timestamp : Int) : RepoMD :=
  { primary := Metadata.create env primary
    filelists := Metadata.create env filelists
    other := Metadata.create env other
    timestamp := timestamp }

/-- `get_repomd_index` from src/src/rpm/index.rs, up to the final askama
render of the repomd.xml template (not among the source files): the `RepoMD`
record it renders.  The timestamp is the source's mutable-maximum loop,
starting from 0. -/
def get_repomd_index (env : RpmEnv) (packages : List RPMPackage) : RepoMD :=
  let primary := get_primary_index env packages
  let filelists := get_filelists_index env packages
  let other := get_other_index env packages
  let timestamp := packages.foldl
    (fun t package => if package.pkg_time > t then package.pkg_time else t) 0
  RepoMD.create env primary filelists other timestamp

/-! ## Helper lemmas -/

/-- The source's mutable-maximum loop over package times is a `max` fold. -/
theorem foldl_time_max (l : List RPMPackage) (t : Int) :
    l.foldl (fun t package => if package.pkg_time > t then package.pkg_time else t) t
      = (l.map RPMPackage.pkg_time).foldl max t := by
  induction l generalizing t with
  | nil => rfl
  | cons p rest ih =>
    simp only [List.foldl_cons, List.map_cons]
    rw [ih]
    congr 1
    by_cases h : p.pkg_time > t
    · rw [if_pos h, max_eq_right (le_of_lt h)]
    · rw [if_neg h, max_eq_left (le_of_not_lt h)]

/-! ## Claim theorems -/

/-- C7: for a Debian-family request the selector performs no version-exactness
refinement: the result is always the full family-filtered list, whatever the
requested version and whether or not some package matches it exactly. -/
theorem select_packages_debian (pool : List Package) (v : Option Version) :
    select_packages pool (Dist.debian v) =
      pool.filter (fun p => matches_distribution p.tipe (Dist.debian v)) := by
  simp [select_packages]

/-- C1: for a version-sensitive (Ubuntu or Fedora) request, `select_packages`
is the family filter refined by exact distribution equality with fallback to
the family filter; the result is non-empty whenever some pool package matches
the family, and it is a sublist of the pool (relative order preserved). -/
theorem select_packages_version_sensitive (pool : List Package) (d : Dist)
    (h : version_sensitive d = true) :
    (select_packages pool d =
      if ((pool.filter (fun p => matches_distribution p.tipe d)).filter
            (fun p => p.dist == some d)).isEmpty then
        pool.filter (fun p => matches_distribution p.tipe d)
      else
        (pool.filter (fun p => matches_distribution p.tipe d)).filter
          (fun p => p.dist == some d))
    ∧ ((∃ p ∈ pool, matches_distribution p.tipe d = true) →
        select_packages pool d ≠ [])
    ∧ (select_packages pool d).Sublist pool := by
  have heq : select_packages pool d =
      if ((pool.filter (fun p => matches_distribution p.tipe d)).filter
            (fun p => p.dist == some d)).isEmpty then
        pool.filter (fun p => matches_distribution p.tipe d)
      else
        (pool.filter (fun p => matches_distribution p.tipe d)).filter
          (fun p => p.dist == some d) := by
    cases d with
    | ubuntu v =>
      simp only [select_packages]
      cases hsel : (((pool.filter fun p => matches_distribution p.tipe (Dist.ubuntu v))).filter
          (fun p => p.dist == some (Dist.ubuntu v))).isEmpty <;> simp [hsel]
    | debian v => simp [version_sensitive] at h
    | fedora v =>
      simp only [select_packages]
      cases hsel : (((pool.filter fun p => matches_distribution p.tipe (Dist.fedora v))).filter
          (fun p => p.dist == some (Dist.fedora v))).isEmpty <;> simp [hsel]
  refine ⟨heq, ?_, ?_⟩
  · rintro ⟨p, hp, hmatch⟩
    rw [heq]
    split
    · intro hnil
      have hmem : p ∈ pool.filter (fun p => matches_distribution p.tipe d) :=
        List.mem_filter.mpr ⟨hp, hmatch⟩
      rw [hnil] at hmem
      exact List.not_mem_nil p hmem
    · next hfull =>
      intro hnil
      rw [hnil] at hfull
      exact hfull rfl
  · rw [heq]
    split
    · exact List.filter_sublist pool
    · exact (List.filter_sublist _).trans (List.filter_sublist pool)

/-- A two-package Ubuntu pool (18.04 and 20.04 variants), used as the C1
witness input. -/
def poolW : List Package :=
  [⟨Tipe.deb, some (Dist.ubuntu (some ⟨18, 4, 0⟩)), [], [], none, 0⟩,
   ⟨Tipe.deb, some (Dist.ubuntu (some ⟨20, 4, 0⟩)), [], [], none, 0⟩]

/-- The requested distribution of the C1 witness: Ubuntu 20.04. -/
def distW : Dist := Dist.ubuntu (some ⟨20, 4, 0⟩)

/-- C1 witness: the pool holds an ubuntu-18.04 and an ubuntu-20.04 package and
the request is Ubuntu 20.04. -/
theorem select_packages_version_sensitive_witness :
    version_sensitive distW = true
    ∧ ((select_packages poolW distW =
        if ((poolW.filter (fun p => matches_distribution p.tipe distW)).filter
              (fun p => p.dist == some distW)).isEmpty then
          poolW.filter (fun p => matches_distribution p.tipe distW)
        else
          (poolW.filter (fun p => matches_distribution p.tipe distW)).filter
            (fun p => p.dist == some distW))
      ∧ ((∃ p ∈ poolW, matches_distribution p.tipe distW = true) →
          select_packages poolW distW ≠ [])
      ∧ (select_packages poolW distW).Sublist poolW) :=
  ⟨by decide, select_packages_version_sensitive poolW distW (by decide)⟩

/-- C6 (amended): the `Date` field of the Release record always equals the
rendered current wall-clock time, for every pool — in particular it does not
depend on the packages' `created_at` timestamps. -/
theorem get_release_index_date (env : AptEnv) (date_now : List Char)
    (packages packages' : List Package) :
    (get_release_index env date_now packages).date = date_now
    ∧ (get_release_index env date_now packages).date =
        (get_release_index env date_now packages').date :=
  ⟨rfl, rfl⟩

/-- C6 counterexample: with the pool fixed (one package, `created_at` 5), the
`Date` field still varies with the wall clock, so it is not a function of the
maximum `created_at` of the input packages — in particular it is not that
maximum rendered in RFC-2822 form. -/
theorem get_release_index_date_cex :
    ¬ ∃ f : Int → List Char, ∀ date_now : List Char,
        (get_release_index
            ⟨fun _ => [], fun _ => [], fun _ => [], fun _ => [], fun _ => [],
             fun _ => []⟩
            date_now
            [⟨Tipe.deb, none, [], [], some [], 5⟩]).date =
          f (([(⟨Tipe.deb, none, [], [], some [], 5⟩ : Package)].map
                Package.created).foldl max 0) := by
  rintro ⟨f, hf⟩
  have h1 := hf "a".data
  have h2 := hf "b".data
  rw [show ∀ dn ps, (get_release_index
      ⟨fun _ => [], fun _ => [], fun _ => [], fun _ => [], fun _ => [],
       fun _ => []⟩ dn ps).date = dn from fun _ _ => rfl] at h1 h2
  exact absurd (h1.trans h2.symm) (by decide)

/-- C8 (amended): the repomd timestamp equals the fold of `max` over the
packages' build times started from 0 — so it is 0 for the empty slice, and 0
rather than the maximum when every build time is negative — and each data
entry's open-size and size equal the exact byte lengths of the plain and
compressed listing texts. -/
theorem get_repomd_index_spec (env : RpmEnv) (packages : List RPMPackage) :
    (get_repomd_index env packages).timestamp =
      (packages.map RPMPackage.pkg_time).foldl max 0
    ∧ (get_repomd_index env packages).primary.open_size =
      (charsBytes (get_primary_index env packages)).length
    ∧ (get_repomd_index env packages).primary.size =
      (env.encode_all (charsBytes (get_primary_index env packages))).length
    ∧ (get_repomd_index env packages).filelists.open_size =
      (charsBytes (get_filelists_index env packages)).length
    ∧ (get_repomd_index env packages).filelists.size =
      (env.encode_all (charsBytes (get_filelists_index env packages))).length
    ∧ (get_repomd_index env packages).other.open_size =
      (charsBytes (get_other_index env packages)).length
    ∧ (get_repomd_index env packages).other.size =
      (env.encode_all (charsBytes (get_other_index env packages))).length := by
  refine ⟨?_, rfl, rfl, rfl, rfl, rfl, rfl⟩
  exact foldl_time_max packages 0

/-- C8 counterexample: a single package whose build time is -3 — the summary
timestamp is 0, not the maximum build time over the input. -/
theorem get_repomd_index_timestamp_cex :
    (get_repomd_index
        ⟨fun _ => [], fun _ => [], fun _ => [], fun _ => [], fun _ => []⟩
        [⟨[], [], [], 0, -3, []⟩]).timestamp = 0
    ∧ (⟨[], [], [], 0, -3, []⟩ : RPMPackage).pkg_time = -3
    ∧ (0 : Int) ≠ -3 := by
  refine ⟨by decide, rfl, by decide⟩

/-- Does a section contain one of the three recognized distribution
keywords? -/
def has_dist_keyword (sec : List Char) : Bool :=
  containsSub sec "ubuntu".data || containsSub sec "debian".data ||
    containsSub sec "fedora".data

/-- The distribution a keyword-bearing section yields, guards in the source's
match order. -/
def dist_of_section (sec : List Char) : Dist :=
  if containsSub sec "ubuntu".data then Dist.ubuntu (parse_version sec)
  else if containsSub sec "debian".data then Dist.debian (parse_version sec)
  else Dist.fedora (parse_version sec)

theorem detect_step_of_kw (acc : Option Dist) (sec : List Char)
    (h : has_dist_keyword sec = true) :
    detect_step acc sec = some (dist_of_section sec) := by
  unfold detect_step dist_of_section
  by_cases h1 : containsSub sec "ubuntu".data <;>
    by_cases h2 : containsSub sec "debian".data <;>
      by_cases h3 : containsSub sec "fedora".data <;>
        simp [has_dist_keyword, h1, h2, h3] at h ⊢

theorem detect_step_of_not_kw (acc : Option Dist) (sec : List Char)
    (h : has_dist_keyword sec = false) :
    detect_step acc sec = acc := by
  unfold detect_step
  simp only [has_dist_keyword, Bool.or_eq_false_iff] at h
  simp [h.1.1, h.1.2, h.2]

/-- The detection loop keeps the LAST keyword-bearing section. -/
theorem detect_dist_eq (sections : List (List Char)) :
    detect_dist sections =
      ((sections.filter has_dist_keyword).getLast?).map dist_of_section := by
  induction sections using List.reverseRecOn with
  | nil => rfl
  | append_singleton l a ih =>
    rw [detect_dist, List.foldl_append, List.foldl_cons, List.foldl_nil,
      List.filter_append]
    by_cases ha : has_dist_keyword a
    · rw [detect_step_of_kw _ _ ha]
      simp [ha, List.getLast?_concat]
    · rw [detect_step_of_not_kw _ _ (by simpa using ha)]
      simp only [List.filter_cons, ha]
      simpa [detect_dist] using ih

/-- C2 counterexample: in `a-ubuntu-debian.deb` the first keyword-bearing
token of the stem is `ubuntu`, yet the detected distribution is Debian: the
last keyword-bearing token wins, not the first. -/
theorem detect_package_first_token_cex :
    split_extention "a-ubuntu-debian.deb".data =
        some (Tipe.deb, "a-ubuntu-debian".data)
    ∧ (detect_package "a-ubuntu-debian.deb".data [] [] 0).map Package.dist =
        Except.ok (some (Dist.debian none))
    ∧ ((sections_of "a-ubuntu-debian".data).filter has_dist_keyword).head? =
        some "ubuntu".data
    ∧ dist_of_section "ubuntu".data = Dist.ubuntu none
    ∧ some (Dist.debian none) ≠ some (Dist.ubuntu none) := by
  refine ⟨by decide, by decide, by decide, by decide, by decide⟩

/-- C2 (amended): when the stem's tokens contain several recognized
distribution keywords, the LAST keyword-bearing token determines the detected
distribution. -/
theorem detect_package_last_token (name ver url : List Char) (created : Int)
    (tipe : Tipe) (splitted : List Char)
    (h : split_extention name = some (tipe, splitted)) :
    (detect_package name ver url created).map Package.dist =
      Except.ok ((((sections_of splitted).filter has_dist_keyword).getLast?).map
        dist_of_section) := by
  unfold detect_package
  rw [h]
  simp [Except.map, detect_dist_eq]

/-- C2 witness: a stem with a single keyword-bearing token. -/
theorem detect_package_last_token_witness :
    split_extention "x-ubuntu22.04.deb".data =
        some (Tipe.deb, "x-ubuntu22.04".data)
    ∧ (detect_package "x-ubuntu22.04.deb".data [] [] 0).map Package.dist =
        Except.ok ((((sections_of "x-ubuntu22.04".data).filter
            has_dist_keyword).getLast?).map dist_of_section) :=
  ⟨by decide, detect_package_last_token _ [] [] 0 Tipe.deb _ (by decide)⟩

/-- The first position (claim-side formulation) at which an ASCII alphabetic
character is immediately followed by an ASCII digit. -/
def first_boundary (s : List Char) : Option Nat :=
  (List.range s.length).find?
    (fun i => (s.getD i ' ').isAlpha && (s.getD (i + 1) ' ').isDigit)

theorem first_boundary_cons (c : Char) (s : List Char) :
    first_boundary (c :: s) =
      if c.isAlpha && (s.getD 0 ' ').isDigit then some 0
      else (first_boundary s).map (· + 1) := by
  unfold first_boundary
  rw [List.length_cons, List.range_succ_eq_map, List.find?_cons]
  simp only [List.getD_cons_zero, List.getD_cons_succ]
  have hfun : ((fun i => ((c :: s).getD i ' ').isAlpha && (s.getD i ' ').isDigit)
        ∘ Nat.succ)
      = (fun i => (s.getD i ' ').isAlpha && (s.getD (i + 1) ' ').isDigit) := by
    funext i
    simp only [Function.comp_apply, Nat.succ_eq_add_one, List.getD_cons_succ]
  have hsucc : Nat.succ = (fun x : Nat => x + 1) := funext fun _ => rfl
  cases hc : c.isAlpha && (s.getD 0 ' ').isDigit with
  | true => simp
  | false =>
    rw [List.find?_map, hfun, hsucc]
    simp

/-- `split_at_numeric` returns exactly the suffix after the first
alphabetic→digit boundary, `none` when there is no such boundary. -/
theorem split_at_numeric_boundary (s : List Char) :
    split_at_numeric s = (first_boundary s).map (fun i => s.drop (i + 1)) := by
  induction s with
  | nil => rfl
  | cons c1 t ih =>
    cases t with
    | nil =>
      rw [first_boundary_cons]
      simp [split_at_numeric, first_boundary, List.getD_nil,
        show (' '.isDigit) = false from rfl]
    | cons c2 rest =>
      rw [first_boundary_cons]
      simp only [List.getD_cons_zero, split_at_numeric]
      by_cases hb : (c1.isAlpha && c2.isDigit) = true
      · simp [hb]
      · rw [if_neg hb, if_neg hb, ih, Option.map_map]
        congr 1

/-- C4: version extraction scans for the first position where an ASCII
alphabetic character is immediately followed by an ASCII digit and parses
everything from that digit onward; with no such boundary no version is parsed
and the Dist is still set with version `none`; `ubuntu22.04` yields version
22.04 and `fedora36` yields version 36.0.0. -/
theorem version_extraction_spec :
    (∀ s : List Char, split_at_numeric s =
        (first_boundary s).map (fun i => s.drop (i + 1)))
    ∧ parse_version "ubuntu22.04".data = some ⟨22, 4, 0⟩
    ∧ parse_version "fedora36".data = some ⟨36, 0, 0⟩
    ∧ parse_version "ubuntu".data = none
    ∧ (detect_package "pkg-ubuntu.deb".data [] [] 0).map Package.dist =
        Except.ok (some (Dist.ubuntu none)) :=
  ⟨split_at_numeric_boundary, by decide, by decide, by decide, by decide⟩

/-- C10: `distribution()` is a partial operation: it yields `none` (the
`unwrap` panic) exactly when no token of the filename stem carries a
recognized distribution keyword; under the precondition that a distribution
was detected at construction, the detected `Dist` is returned. -/
theorem distribution_detected (name ver url : List Char) (created : Int)
    (tipe : Tipe) (splitted : List Char) (pkg : Package)
    (hs : split_extention name = some (tipe, splitted))
    (h : detect_package name ver url created = Except.ok pkg) :
    (distribution pkg = none ↔
      ((sections_of splitted).all fun sec => !has_dist_keyword sec) = true)
    ∧ (∀ d, pkg.dist = some d → distribution pkg = some d) := by
  have hdist : pkg.dist = detect_dist (sections_of splitted) := by
    unfold detect_package at h
    rw [hs] at h
    cases h
    rfl
  refine ⟨?_, fun d hd => by rw [distribution, hd]⟩
  rw [distribution, hdist, detect_dist_eq, Option.map_eq_none',
    List.getLast?_eq_none_iff, List.filter_eq_nil_iff, List.all_eq_true]
  simp

/-- C10 witness: `caprine_2.56.1_amd64.deb` carries no distribution keyword,
so the constructed package's `distribution()` hits the panic value `none`. -/
theorem distribution_detected_witness :
    split_extention "caprine_2.56.1_amd64.deb".data =
        some (Tipe.deb, "caprine_2.56.1_amd64".data)
    ∧ detect_package "caprine_2.56.1_amd64.deb".data [] [] 0 =
        Except.ok ⟨Tipe.deb, none, [], [], none, 0⟩
    ∧ ((distribution ⟨Tipe.deb, none, [], [], none, 0⟩ = none ↔
          ((sections_of "caprine_2.56.1_amd64".data).all
            fun sec => !has_dist_keyword sec) = true)
        ∧ (∀ d, (⟨Tipe.deb, none, [], [], none, 0⟩ : Package).dist = some d →
            distribution ⟨Tipe.deb, none, [], [], none, 0⟩ = some d)) :=
  ⟨by decide, by decide,
    distribution_detected "caprine_2.56.1_amd64.deb".data [] [] 0 Tipe.deb
      "caprine_2.56.1_amd64".data ⟨Tipe.deb, none, [], [], none, 0⟩
      (by decide) (by decide)⟩

/-- A trimmed character list is non-empty as soon as it holds one
non-whitespace character. -/
theorem trimChars_ne_nil {l : List Char} {c : Char} (hc : c ∈ l)
    (hw : isWs c = false) : trimChars l ≠ [] := by
  intro h
  unfold trimChars at h
  rw [List.reverse_eq_nil_iff, List.dropWhile_eq_nil_iff] at h
  have hcd : c ∈ l.dropWhile isWs := by
    have hsplit := List.takeWhile_append_dropWhile isWs l
    rw [← hsplit] at hc
    rcases List.mem_append.mp hc with h1 | h2
    · exact absurd (List.mem_takeWhile_imp h1) (by simp [hw])
    · exact h2
  have := h c (List.mem_reverse.mpr hcd)
  simp [hw] at this

theorem intercalate_singleton (sep x : List Char) :
    List.intercalate sep [x] = x := by
  simp [List.intercalate]

/-- C5: a package whose raw data is absent is skipped without failing: with
two packages of which exactly the second has data, the Packages listing holds
exactly one stanza — the available package — equals the document generated
from the available package alone, and is not the empty document. -/
theorem get_package_index_skips_missing (env : AptEnv) (p₁ p₂ : Package)
    (d : List Nat) (h1 : p₁.data = none) (h2 : p₂.data = some d) :
    (∃ m, get_package_metadata env p₂ = Except.ok m ∧
        get_package_stanzas env [p₁, p₂] = [m])
    ∧ get_package_index env [p₁, p₂] = get_package_index env [p₂]
    ∧ get_package_index env [p₁, p₂] ≠ [] := by
  have hm1 : get_package_metadata env p₁ =
      Except.error "Package data is not available".data := by
    unfold get_package_metadata
    rw [h1]
  have hm2 : get_package_metadata env p₂ = Except.ok
      { control := trimEndChars (env.get_control_data d)
        md5 := env.md5 d
        sha1 := env.sha1 d
        sha256 := env.sha256 d
        sha512 := env.sha512 d
        size := d.length
        filename := "pool/stable/".data ++ p₂.ver ++ "/".data
          ++ file_name p₂.url } := by
    unfold get_package_metadata
    rw [h2]
  have hst : get_package_stanzas env [p₁, p₂] =
      [{ control := trimEndChars (env.get_control_data d)
         md5 := env.md5 d
         sha1 := env.sha1 d
         sha256 := env.sha256 d
         sha512 := env.sha512 d
         size := d.length
         filename := "pool/stable/".data ++ p₂.ver ++ "/".data
           ++ file_name p₂.url }] := by
    simp [get_package_stanzas, hm1, hm2, Except.toOption]
  have hst2 : get_package_stanzas env [p₂] =
      get_package_stanzas env [p₁, p₂] := by
    rw [hst]
    simp [get_package_stanzas, hm2, Except.toOption]
  refine ⟨⟨_, hm2, hst⟩, ?_, ?_⟩
  · unfold get_package_index
    rw [hst2]
  · unfold get_package_index
    rw [hst, render_packages, List.map_cons, List.map_nil,
      intercalate_singleton]
    have hF : 'F' ∈ "\nFilename: ".data := by decide
    apply trimChars_ne_nil (c := 'F')
    · simp only [render_stanza, List.mem_append]
      tauto
    · decide

/-- The C5 witness inputs: a package without data and one with data. -/
def aptEnvW : AptEnv :=
  ⟨fun _ => [], fun _ => [], fun _ => [], fun _ => [], fun _ => [],
   fun _ => []⟩

/-- C5 witness: two concrete packages, the first without raw data. -/
theorem get_package_index_skips_missing_witness :
    (⟨Tipe.deb, none, [], [], none, 0⟩ : Package).data = none
    ∧ (⟨Tipe.deb, none, [], [], some [7], 0⟩ : Package).data = some [7]
    ∧ ((∃ m, get_package_metadata aptEnvW ⟨Tipe.deb, none, [], [], some [7], 0⟩ =
            Except.ok m ∧
          get_package_stanzas aptEnvW
            [⟨Tipe.deb, none, [], [], none, 0⟩,
             ⟨Tipe.deb, none, [], [], some [7], 0⟩] = [m])
      ∧ get_package_index aptEnvW
          [⟨Tipe.deb, none, [], [], none, 0⟩,
           ⟨Tipe.deb, none, [], [], some [7], 0⟩] =
        get_package_index aptEnvW [⟨Tipe.deb, none, [], [], some [7], 0⟩]
      ∧ get_package_index aptEnvW
          [⟨Tipe.deb, none, [], [], none, 0⟩,
           ⟨Tipe.deb, none, [], [], some [7], 0⟩] ≠ []) :=
  ⟨rfl, rfl, get_package_index_skips_missing aptEnvW _ _ [7] rfl rfl⟩

theorem takeWhile_middle {p : Char → Bool} (l1 : List Char) (a : Char)
    (l2 : List Char) (h1 : ∀ x ∈ l1, p x = true) (ha : p a = false) :
    (l1 ++ a :: l2).takeWhile p = l1 := by
  induction l1 with
  | nil => simp [List.takeWhile_cons, ha]
  | cons x xs ih =>
    rw [List.cons_append, List.takeWhile_cons, h1 x (List.mem_cons_self x xs),
      if_pos rfl, ih (fun y hy => h1 y (List.mem_cons_of_mem x hy))]

/-- Every list containing `a` splits at the last occurrence of `a`. -/
theorem exists_last_decomp {a : Char} {l : List Char} (h : a ∈ l) :
    ∃ l1 l2, l = l1 ++ a :: l2 ∧ a ∉ l2 := by
  induction l using List.reverseRecOn with
  | nil => cases h
  | append_singleton xs x ih =>
    by_cases hx : x = a
    · exact ⟨xs, [], by rw [hx], by simp⟩
    · have hmem : a ∈ xs := by
        rcases List.mem_append.mp h with h1 | h2
        · exact h1
        · simp only [List.mem_singleton] at h2
          exact absurd h2.symm hx
      rcases ih hmem with ⟨l1, l2, heq, hnot⟩
      refine ⟨l1, l2 ++ [x], by rw [heq]; simp, ?_⟩
      intro hmem2
      rcases List.mem_append.mp hmem2 with h1 | h2
      · exact hnot h1
      · simp only [List.mem_singleton] at h2
        exact hx h2.symm

/-- The last-occurrence decomposition is unique. -/
theorem last_decomp_unique {a : Char} {l1 l2 l3 l4 : List Char}
    (heq : l1 ++ a :: l2 = l3 ++ a :: l4) (h2 : a ∉ l2) (h4 : a ∉ l4) :
    l1 = l3 ∧ l2 = l4 := by
  have hrev : l2.reverse ++ a :: l1.reverse = l4.reverse ++ a :: l3.reverse := by
    have hc := congrArg List.reverse heq
    simpa [List.reverse_append] using hc
  have hta : (l2.reverse ++ a :: l1.reverse).takeWhile (fun c => !(c == a))
      = l2.reverse := by
    refine takeWhile_middle _ _ _ (fun x hx => ?_) (by simp)
    have hxl : x ∈ l2 := List.mem_reverse.mp hx
    simp only [Bool.not_eq_true', beq_eq_false_iff_ne]
    intro hxa
    exact h2 (hxa ▸ hxl)
  have htb : (l4.reverse ++ a :: l3.reverse).takeWhile (fun c => !(c == a))
      = l4.reverse := by
    refine takeWhile_middle _ _ _ (fun x hx => ?_) (by simp)
    have hxl : x ∈ l4 := List.mem_reverse.mp hx
    simp only [Bool.not_eq_true', beq_eq_false_iff_ne]
    intro hxa
    exact h4 (hxa ▸ hxl)
  have h24 : l2 = l4 := by
    have h2' := hta
    rw [hrev] at h2'
    exact List.reverse_injective (h2'.symm.trans htb)
  refine ⟨?_, h24⟩
  rw [h24] at heq
  exact List.append_cancel_right heq

/-- `split_extention` on a last-dot decomposition. -/
theorem split_extention_decomp (pre suf : List Char) (hdot : '.' ∉ suf) :
    split_extention (pre ++ '.' :: suf) =
      if pre = [] then none
      else if suf = "deb".data then some (Tipe.deb, pre)
      else if suf = "rpm".data then some (Tipe.rpm, pre)
      else none := by
  have hrev : (pre ++ '.' :: suf).reverse = suf.reverse ++ '.' :: pre.reverse := by
    simp [List.reverse_append]
  have hta : (suf.reverse ++ '.' :: pre.reverse).takeWhile (fun c => !(c == '.'))
      = suf.reverse := by
    refine takeWhile_middle _ _ _ (fun x hx => ?_) (by simp)
    have hxl : x ∈ suf := List.mem_reverse.mp hx
    simp only [Bool.not_eq_true', beq_eq_false_iff_ne]
    intro hxa
    exact hdot (hxa ▸ hxl)
  simp only [split_extention, hrev, hta, List.length_reverse,
    List.length_append, List.length_cons]
  have hlt : suf.length < pre.length + (suf.length + 1) := by omega
  rw [if_pos hlt]
  have hidx : pre.length + (suf.length + 1) - suf.length - 1 = pre.length := by
    omega
  rw [hidx]
  by_cases hpre : pre = []
  · rw [if_pos (by simp [hpre]), if_pos hpre]
  · rw [if_neg (fun h => hpre (List.length_eq_zero.mp h)), if_neg hpre,
      List.take_left]
    simp only [List.reverse_eq_iff, List.reverse_cons, List.reverse_nil,
      List.nil_append, List.cons_append, List.append_nil]

/-- A filename without a dot never classifies. -/
theorem split_extention_no_dot {s : List Char} (h : '.' ∉ s) :
    split_extention s = none := by
  have hall : s.reverse.takeWhile (fun c => !(c == '.')) = s.reverse := by
    rw [List.takeWhile_eq_self_iff]
    intro x hx
    have hxl : x ∈ s := List.mem_reverse.mp hx
    simp only [Bool.not_eq_true', beq_eq_false_iff_ne]
    intro hxa
    exact h (hxa ▸ hxl)
  simp [split_extention, hall]

/-- C3 counterexample: `.deb` has final `.`-delimited suffix `deb`, yet
`detect_package` rejects it (the dot sits at index 0 and `split_extention`
bails out), so "error exactly when the suffix is neither deb nor rpm" fails. -/
theorem detect_package_extension_cex :
    detect_package ".deb".data [] [] 0 = Except.error ()
    ∧ (".deb".data.splitOnP (fun c => c == '.')).getLast? = some "deb".data := by
  refine ⟨by decide, by decide⟩

/-- C3 (amended): `detect_package` errors exactly when the filename does not
decompose around a last `.` that is preceded by a non-empty stem and followed
by a dot-free suffix equal to `deb` or `rpm`; with suffix `deb` the packaging
type is Deb, with `rpm` it is Rpm. -/
theorem detect_package_extension (name ver url : List Char) (created : Int) :
    ((detect_package name ver url created = Except.error ()) ↔
      ¬ ∃ pre suf, name = pre ++ '.' :: suf ∧ pre ≠ [] ∧ '.' ∉ suf ∧
        (suf = "deb".data ∨ suf = "rpm".data))
    ∧ (∀ pre suf, name = pre ++ '.' :: suf → pre ≠ [] → '.' ∉ suf →
        suf = "deb".data →
        (detect_package name ver url created).map Package.tipe =
          Except.ok Tipe.deb)
    ∧ (∀ pre suf, name = pre ++ '.' :: suf → pre ≠ [] → '.' ∉ suf →
        suf = "rpm".data →
        (detect_package name ver url created).map Package.tipe =
          Except.ok Tipe.rpm) := by
  have herr : detect_package name ver url created = Except.error () ↔
      split_extention name = none := by
    unfold detect_package
    cases h : split_extention name with
    | none => simp
    | some x =>
      obtain ⟨t, sp⟩ := x
      simp
  by_cases hd : '.' ∈ name
  · obtain ⟨pre, suf, heq, hnot⟩ := exists_last_decomp hd
    subst heq
    have hok : ∀ pre' suf', pre ++ '.' :: suf = pre' ++ '.' :: suf' →
        '.' ∉ suf' → pre' = pre ∧ suf' = suf := by
      intro pre' suf' heq' hdot'
      have := last_decomp_unique heq'.symm hdot' hnot
      exact ⟨this.1, this.2⟩
    refine ⟨?_, ?_, ?_⟩
    · rw [herr, split_extention_decomp pre suf hnot]
      constructor
      · rintro hnone ⟨pre', suf', heq', hpre', hdot', hsufs'⟩
        obtain ⟨hp, hs⟩ := hok pre' suf' heq' hdot'
        subst hp
        subst hs
        by_cases hpre : pre' = []
        · exact hpre' hpre
        · rw [if_neg hpre] at hnone
          rcases hsufs' with hdeb | hrpm
          · rw [if_pos hdeb] at hnone
            cases hnone
          · rw [if_neg (by rw [hrpm]; decide), if_pos hrpm] at hnone
            cases hnone
      · intro hnex
        by_cases hpre : pre = []
        · rw [if_pos hpre]
        · rw [if_neg hpre]
          have hdeb : ¬ suf = "deb".data := fun hdeb =>
            hnex ⟨pre, suf, rfl, hpre, hnot, Or.inl hdeb⟩
          have hrpm : ¬ suf = "rpm".data := fun hrpm =>
            hnex ⟨pre, suf, rfl, hpre, hnot, Or.inr hrpm⟩
          rw [if_neg hdeb, if_neg hrpm]
    · intro pre' suf' heq' hpre' hdot' hdeb'
      obtain ⟨hp, hs⟩ := hok pre' suf' heq' hdot'
      subst hp
      subst hs
      unfold detect_package
      rw [split_extention_decomp pre' suf' hdot', if_neg hpre', if_pos hdeb']
      rfl
    · intro pre' suf' heq' hpre' hdot' hrpm'
      obtain ⟨hp, hs⟩ := hok pre' suf' heq' hdot'
      subst hp
      subst hs
      unfold detect_package
      rw [split_extention_decomp pre' suf' hdot', if_neg hpre',
        if_neg (by rw [hrpm']; decide), if_pos hrpm']
      rfl
  · refine ⟨?_, ?_, ?_⟩
    · rw [herr, split_extention_no_dot hd]
      constructor
      · rintro _ ⟨pre, suf, heq, _, _, _⟩
        apply hd
        rw [heq]
        simp
      · intro _
        rfl
    · intro pre suf heq _ _ _
      exact absurd (by rw [heq]; simp : '.' ∈ name) hd
    · intro pre suf heq _ _ _
      exact absurd (by rw [heq]; simp : '.' ∈ name) hd

theorem takeWhile_append_singleton_false {p : Char → Bool} {a : Char}
    (ha : p a = false) (xs : List Char) :
    (xs ++ [a]).takeWhile p = xs.takeWhile p := by
  induction xs with
  | nil => simp [List.takeWhile_cons, ha]
  | cons x t ih =>
    rw [List.cons_append, List.takeWhile_cons, List.takeWhile_cons]
    by_cases hx : p x = true
    · rw [if_pos hx, if_pos hx, ih]
    · rw [if_neg hx, if_neg hx]

theorem takeWhile_append_of_mem_false {p : Char → Bool} {xs : List Char}
    (h : ∃ x ∈ xs, p x = false) (ys : List Char) :
    (xs ++ ys).takeWhile p = xs.takeWhile p := by
  induction xs with
  | nil =>
    rcases h with ⟨x, hx, _⟩
    cases hx
  | cons a t ih =>
    rw [List.cons_append, List.takeWhile_cons, List.takeWhile_cons]
    by_cases hpa : p a = true
    · rcases h with ⟨x, hx, hpx⟩
      rcases List.mem_cons.mp hx with hxa | hxs
      · subst hxa
        rw [hpa] at hpx
        cases hpx
      · rw [if_pos hpa, if_pos hpa, ih ⟨x, hxs, hpx⟩]
    · rw [if_neg hpa, if_neg hpa]

/-- The last piece of `splitOnP p` is the reversed longest `p`-free suffix,
and the split is a single piece exactly when no element satisfies `p`. -/
theorem splitOnP_getLast_char (p : Char → Bool) (l : List Char) :
    ((l.splitOnP p).getLast? =
      some ((l.reverse.takeWhile (fun c => !(p c))).reverse))
    ∧ ((l.splitOnP p).length = 1 ↔ ∀ x ∈ l, p x = false) := by
  induction l with
  | nil =>
    refine ⟨rfl, by simp⟩
  | cons c rest ih =>
    obtain ⟨ihL, ihQ⟩ := ih
    have hnil := List.splitOnP_ne_nil p rest
    rw [List.splitOnP_cons]
    by_cases hc : p c = true
    · rw [if_pos hc]
      constructor
      · cases hL : List.splitOnP p rest with
        | nil => exact absurd hL hnil
        | cons x t =>
          rw [List.getLast?_cons_cons, ← hL, ihL]
          congr 1
          rw [List.reverse_cons,
            takeWhile_append_singleton_false (by simp [hc])]
      · constructor
        · intro h1
          exfalso
          rw [List.length_cons] at h1
          have h0 : (List.splitOnP p rest).length = 0 := by omega
          exact hnil (List.length_eq_zero.mp h0)
        · intro hall
          exact absurd (hall c (List.mem_cons_self c rest)) (by simp [hc])
    · have hpc : p c = false := by
        rcases Bool.eq_false_or_eq_true (p c) with h | h
        · exact absurd h hc
        · exact h
      rw [if_neg hc]
      cases hL : List.splitOnP p rest with
      | nil => exact absurd hL hnil
      | cons x t =>
        rw [List.modifyHead_cons]
        cases t with
        | nil =>
          have hx : x = (rest.reverse.takeWhile (fun c => !(p c))).reverse := by
            have hgl := ihL
            rw [hL] at hgl
            simpa using hgl
          have hall : ∀ y ∈ rest, p y = false := by
            have hq := ihQ
            rw [hL] at hq
            exact hq.mp rfl
          have htw : rest.reverse.takeWhile (fun c => !(p c)) = rest.reverse := by
            rw [List.takeWhile_eq_self_iff]
            intro y hy
            simp [hall y (List.mem_reverse.mp hy)]
          have hx' : x = rest := by
            rw [hx, htw, List.reverse_reverse]
          have hfull : ((c :: rest).reverse).takeWhile (fun c => !(p c))
              = (c :: rest).reverse := by
            rw [List.takeWhile_eq_self_iff]
            intro y hy
            have hy' : y ∈ c :: rest := List.mem_reverse.mp hy
            rcases List.mem_cons.mp hy' with rfl | hyr
            · simp [hpc]
            · simp [hall y hyr]
          constructor
          · rw [show ([c :: x] : List (List Char)).getLast? = some (c :: x)
              from rfl]
            rw [hfull, List.reverse_reverse, hx']
          · constructor
            · intro _ y hy
              rcases List.mem_cons.mp hy with rfl | hyr
              · exact hpc
              · exact hall y hyr
            · intro _
              rfl
        | cons y t' =>
          have hne1 : ¬ (List.splitOnP p rest).length = 1 := by
            rw [hL]
            simp only [List.length_cons]
            omega
          have hnall : ¬ ∀ z ∈ rest, p z = false := fun hall =>
            hne1 (ihQ.mpr hall)
          have hex : ∃ z ∈ rest.reverse, (fun c => !(p c)) z = false := by
            push_neg at hnall
            rcases hnall with ⟨z, hz, hpz⟩
            have hzt : p z = true := by
              rcases Bool.eq_false_or_eq_true (p z) with h | h
              · exact h
              · exact absurd h hpz
            exact ⟨z, List.mem_reverse.mpr hz, by simp [hzt]⟩
          constructor
          · rw [List.getLast?_cons_cons,
              ← @List.getLast?_cons_cons (List Char) x y t', ← hL, ihL]
            congr 1
            rw [List.reverse_cons, takeWhile_append_of_mem_false hex]
          · constructor
            · intro h1
              exfalso
              simp only [List.length_cons] at h1
              omega
            · intro hall
              exact absurd (fun z hz => hall z (List.mem_cons_of_mem c hz))
                hnall

/-- `file_name` is the reversed longest slash-free suffix of the URL. -/
theorem file_name_eq (url : List Char) :
    file_name url = (url.reverse.takeWhile (fun c => !(c == '/'))).reverse := by
  have h1 := (splitOnP_getLast_char (fun c => c == '/') url).1
  rw [List.getLast?_eq_getLast _ (List.splitOnP_ne_nil _ _)] at h1
  exact Option.some_injective _ h1

theorem dropWhile_head_false {p : Char → Bool} {l : List Char} {x : Char}
    {rest : List Char} (h : l.dropWhile p = x :: rest) : p x = false := by
  induction l with
  | nil => cases h
  | cons a as ih =>
    rw [List.dropWhile_cons] at h
    by_cases hpa : p a = true
    · rw [if_pos hpa] at h
      exact ih h
    · rw [if_neg hpa] at h
      injection h with h1 h2
      rw [← h1]
      rcases Bool.eq_false_or_eq_true (p a) with ht | hf
      · exact absurd ht hpa
      · exact hf

/-- C9: `file_name()` is total: the URL always splits into at least one
segment (the `unwrap` is safe); the result carries no `/`; the URL ends in
it, with what precedes being empty or ending in `/` (so it is the substring
after the last `/`); and a URL without `/` is returned whole. -/
theorem file_name_total (url : List Char) :
    url.splitOnP (fun c => c == '/') ≠ []
    ∧ '/' ∉ file_name url
    ∧ (∃ pre, url = pre ++ file_name url ∧
        (pre = [] ∨ ∃ pre', pre = pre' ++ ['/']))
    ∧ ('/' ∉ url → file_name url = url) := by
  have hfn := file_name_eq url
  refine ⟨List.splitOnP_ne_nil _ _, ?_, ?_, ?_⟩
  · rw [hfn]
    intro hmem
    have hw := List.mem_takeWhile_imp (List.mem_reverse.mp hmem)
    simp at hw
  · refine ⟨(url.reverse.dropWhile (fun c => !(c == '/'))).reverse, ?_, ?_⟩
    · rw [hfn]
      have hsplit := List.takeWhile_append_dropWhile
        (fun c => !(c == '/')) url.reverse
      have h2 := congrArg List.reverse hsplit
      rw [List.reverse_append, List.reverse_reverse] at h2
      exact h2.symm
    · cases hdw : url.reverse.dropWhile (fun c => !(c == '/')) with
      | nil =>
        left
        rfl
      | cons x rest =>
        right
        refine ⟨rest.reverse, ?_⟩
        have hx : (fun c => !(c == '/')) x = false := dropWhile_head_false hdw
        have hx' : x = '/' := by simpa using hx
        rw [List.reverse_cons, hx']
  · intro hnd
    rw [hfn]
    have hself : url.reverse.takeWhile (fun c => !(c == '/')) = url.reverse := by
      rw [List.takeWhile_eq_self_iff]
      intro x hx
      simp only [Bool.not_eq_true', beq_eq_false_iff_ne]
      intro hxe
      exact hnd (hxe ▸ List.mem_reverse.mp hx)
    rw [hself, List.reverse_reverse]

end Packhub
